import Mathlib

/-!
Verification development for the `benchparse` Go package: parsing of
`testing.B` benchmark output into a typed model, plus typed comparison,
filtering and grouping of parsed results.

Go strings are embedded as `List Char` (UTF-8 byte order coincides with
codepoint order, so lexicographic comparison agrees). Go `float64` is
embedded as an exact rational together with the special values `+Inf`,
`-Inf` and `NaN`; rounding of decimal literals and of widened integers is
idealised as exact, which is faithful for every value handled in this
development. Go standard-library collaborators (`strconv.Atoi`,
`strconv.ParseFloat`, `strconv.ParseBool`, `strings.Split`) are modelled
from their documented behaviour; the repository's own functions are
translated from the repository source.
-/

namespace Benchparse

deriving instance DecidableEq for Except

/-- A Go string, embedded as its list of characters. -/
abbrev GoStr := List Char

/-- A Go `float64`: an exact finite rational or one of the special values. -/
inductive GoFloat where
  | finite (val : ℚ)
  | posInf
  | negInf
  | nan
deriving DecidableEq, Repr

/-- Go `==` on `float64` (`NaN` is not equal to anything, including itself). -/
def feq : GoFloat → GoFloat → Bool
  | .finite a, .finite b => decide (a = b)
  | .posInf, .posInf => true
  | .negInf, .negInf => true
  | _, _ => false

/-- Go `<` on `float64` (`NaN` compares false against everything). -/
def flt : GoFloat → GoFloat → Bool
  | .finite a, .finite b => decide (a < b)
  | .finite _, .posInf => true
  | .negInf, .finite _ => true
  | .negInf, .posInf => true
  | _, _ => false

/-- Digit string to natural number (callers guarantee the characters are digits). -/
def digitsToNat (ds : GoStr) : Nat :=
  ds.foldl (fun acc c => acc * 10 + (c.toNat - 48)) 0

/-- Model of Go `strconv.Atoi` (equivalently `strconv.ParseInt(s, 10, 64)`):
optional sign, then one or more decimal digits, with an `int64` range check. -/
def goAtoi (s : GoStr) : Option Int :=
  match s with
  | [] => none
  | c :: rest =>
    let ds := if c = '-' ∨ c = '+' then rest else s
    let neg := c = '-'
    if ds.isEmpty || !ds.all Char.isDigit then none
    else
      let n : Int := if neg then -(digitsToNat ds : Int) else (digitsToNat ds : Int)
      if n < -(2 ^ 63) ∨ 2 ^ 63 ≤ n then none else some n

/-- Model of Go `strconv.ParseBool`: the twelve accepted spellings. -/
def goParseBool (s : GoStr) : Option Bool :=
  if s ∈ ["1".toList, "t".toList, "T".toList, "TRUE".toList, "true".toList, "True".toList] then
    some true
  else if s ∈ ["0".toList, "f".toList, "F".toList, "FALSE".toList, "false".toList, "False".toList] then
    some false
  else none

/-- Decimal mantissa with optional fraction and exponent, the non-special part
of Go `strconv.ParseFloat`'s decimal grammar: `digits[.digits][(e|E)[sign]digits]`
with at least one mantissa digit. Hexadecimal floats and digit-separating
underscores are outside the inputs this package handles and are not modelled. -/
def parseDecMantissa (s : GoStr) : Option ℚ :=
  let ip := s.takeWhile Char.isDigit
  let rest1 := s.dropWhile Char.isDigit
  let (fp, rest2) :=
    match rest1 with
    | '.' :: t => (t.takeWhile Char.isDigit, t.dropWhile Char.isDigit)
    | t => ([], t)
  let hasDot := match rest1 with | '.' :: _ => true | _ => false
  if ip.isEmpty && (!hasDot || fp.isEmpty) then none
  else
    let expPart : Option Int :=
      match rest2 with
      | [] => some 0
      | e :: t =>
        if e = 'e' ∨ e = 'E' then
          match t with
          | [] => none
          | c :: t2 =>
            let eds := if c = '-' ∨ c = '+' then t2 else t
            if eds.isEmpty || !eds.all Char.isDigit then none
            else some (if c = '-' then -(digitsToNat eds : Int) else (digitsToNat eds : Int))
        else none
    match expPart with
    | none => none
    | some e =>
      let mantissa := digitsToNat (ip ++ fp)
      let scale : Int := e - fp.length
      some (if 0 ≤ scale then ((mantissa * 10 ^ scale.toNat : ℕ) : ℚ)
            else mkRat mantissa (10 ^ (-scale).toNat))

/-- Model of Go `strconv.ParseFloat(s, 64)`. Accepts an optional sign, the
case-insensitive specials `inf`/`infinity` (signed) and `nan` (unsigned), or a
decimal mantissa. Values whose magnitude overflows or underflows `float64`
make Go return `ErrRange`, modelled here as a parse failure; finite results
are kept exact rather than rounded to the nearest `float64`. -/
def goParseFloat (s : GoStr) : Option GoFloat :=
  if s.map Char.toLower = "nan".toList then some .nan
  else
    let (neg, rest) :=
      match s with
      | '-' :: t => (true, t)
      | '+' :: t => (false, t)
      | t => (false, t)
    if rest.map Char.toLower = "inf".toList ∨ rest.map Char.toLower = "infinity".toList then
      some (if neg then .negInf else .posInf)
    else
      match parseDecMantissa rest with
      | none => none
      | some q0 =>
        let q : ℚ := if neg then -q0 else q0
        if ((2 ^ 1024 - 2 ^ 970 : ℕ) : ℚ) ≤ |q| then none
        else if q ≠ 0 ∧ |q| ≤ mkRat 1 (2 ^ 1075) then none
        else some (.finite q)

/-- A typed scalar value as produced by the value typer (`value` in
`benchmark.go`): Go `int`, `float64`, `bool` or `string`. -/
inductive GoValue where
  | int (val : Int)
  | float (val : GoFloat)
  | bool (val : Bool)
  | str (val : GoStr)
deriving DecidableEq, Repr

/-- The conversion chain of `value` in `benchmark.go`: `strconv.Atoi`, then
`strconv.ParseFloat`, then `strconv.ParseBool`. -/
def valueConvs : List (GoStr → Option GoValue) :=
  [fun str => (goAtoi str).map GoValue.int,
   fun str => (goParseFloat str).map GoValue.float,
   fun str => (goParseBool str).map GoValue.bool]

/-- The `for _, conv := range convs` loop of `value`: first successful conversion. -/
def firstConv : List (GoStr → Option GoValue) → GoStr → Option GoValue
  | [], _ => none
  | conv :: rest, s =>
    match conv s with
    | some res => some res
    | none => firstConv rest s

/-- `value` from `benchmark.go`: type a textual token by trying the conversion
chain in order, falling back to the string itself. -/
def value (s : GoStr) : GoValue :=
  (firstConv valueConvs s).getD (.str s)

/-- Scanner for Go `strings.Split`: leftmost non-overlapping occurrences of the
separator `c0 :: sep'`, accumulating the current field in reverse in `acc`.
The `Nat` argument is recursion fuel (one unit per consumed character, so the
input's length always suffices); it exists only to keep the recursion
structural, and its exhaustion case is unreachable from `splitGo`. -/
def splitAux (c0 : Char) (sep' : GoStr) : Nat → GoStr → GoStr → List GoStr
  | _, acc, [] => [acc.reverse]
  | 0, acc, s => [acc.reverse ++ s]
  | fuel + 1, acc, c :: rest =>
    if (c0 :: sep').isPrefixOf (c :: rest) then
      acc.reverse :: splitAux c0 sep' fuel [] (rest.drop sep'.length)
    else
      splitAux c0 sep' fuel (c :: acc) rest

/-- Model of Go `strings.Split(s, sep)`. An empty separator explodes the
string into characters, as in Go (unused by this package). -/
def splitGo (sep s : GoStr) : List GoStr :=
  match sep with
  | [] => s.map (fun c => [c])
  | c0 :: sep' => splitAux c0 sep' s.length [] s

/-- Whether `sep` occurs as a contiguous run inside `s`. -/
def containsSeq (sep : GoStr) : GoStr → Bool
  | [] => sep.isEmpty
  | c :: rest => sep.isPrefixOf (c :: rest) || containsSeq sep rest

/-- The optional `(?:\-([0-9]+))?$` tail of the benchmark-info regex
`benchInfoExpr`: the remainder after the first capture group must be empty or
a hyphen followed by one or more digits running to the end. -/
def tailDigits : GoStr → Option (Option GoStr)
  | [] => some none
  | '-' :: ds => if !ds.isEmpty && ds.all Char.isDigit then some (some ds) else none
  | _ => none

/-- The lazy `.+?` scan of `benchInfoExpr`: extend the first capture group one
character at a time (at least one character, never a newline) until the
remainder of the string matches the optional `-digits` tail. -/
def scanInfo (acc : GoStr) : GoStr → Option (GoStr × Option GoStr)
  | [] => none
  | c :: rest =>
    if c = '\n' then none
    else
      match tailDigits rest with
      | some d => some (acc ++ [c], d)
      | none => scanInfo (acc ++ [c]) rest

/-- Model of `benchInfoExpr.FindStringSubmatch` for the anchored regex
`^(Benchmark.+?)(?:\-([0-9]+))?$`: the capture group (the info string)
together with the optional digits of the trailing `-N` suffix. -/
def benchInfoMatch (s : GoStr) : Option (GoStr × Option GoStr) :=
  if ("Benchmark".toList).isPrefixOf s then
    scanInfo "Benchmark".toList (s.drop 9)
  else none

/-- `BenchVarValue` from the source: a sub-benchmark path component of the
form `var_name=var_value`, with its slash-separated position. -/
structure BenchVarValue where
  name : GoStr
  value : GoValue
  position : Nat
deriving DecidableEq, Repr

/-- `BenchSub` from the source: a path component not of the `name=value`
form, with its slash-separated position. -/
structure BenchSub where
  name : GoStr
  position : Nat
deriving DecidableEq, Repr

/-- `BenchInputs` from the source: the decomposed inputs of one benchmark case. -/
structure BenchInputs where
  varValues : List BenchVarValue
  subs : List BenchSub
  maxProcs : Int
deriving DecidableEq, Repr

/-- The component loop of `parseInfo`: each component whose split on `=` has
exactly two parts becomes a `BenchVarValue`, every other component a
`BenchSub`; `start` is the slash index of the first component in the list. -/
def collectInputs (start : Nat) : List GoStr → List BenchVarValue × List BenchSub
  | [] => ([], [])
  | sub :: rest =>
    let r := collectInputs (start + 1) rest
    match splitGo ['='] sub with
    | [n, v] => (⟨n, value v, start⟩ :: r.1, r.2)
    | _ => (r.1, ⟨sub, start⟩ :: r.2)

/-- `parseInfo` from `benchmark.go`: match the info regex, parse the optional
`GOMAXPROCS` suffix, split the info string on `/` into the top-level name and
the typed components. -/
def parseInfo (s : GoStr) : Except GoStr (GoStr × BenchInputs) :=
  match benchInfoMatch s with
  | none => .error ("info string didn't match regex".toList)
  | some (info, procDigits) =>
    let maxProcs : Except GoStr Int :=
      match procDigits with
      | none => .ok 1
      | some ds =>
        match goAtoi ds with
        | some n => .ok n
        | none => .error ("error parsing maxprocs".toList)
    match maxProcs with
    | .error e => .error e
    | .ok mp =>
      let bySub := splitGo ['/'] info
      let nm := bySub.headD []
      let r := collectInputs 1 (bySub.drop 1)
      .ok (nm, ⟨r.1, r.2, mp⟩)

/-- The base error values of `compare.go`: `errOperationNotDefined`,
`errNonComparable`, `errDifferentNames`, `errInvalidOperation`,
`errMalformedFilter`, plus the `non-numeric type` error of `getFloat`. -/
inductive BaseErr where
  | operationNotDefined
  | nonComparable
  | differentNames
  | invalidOperation
  | malformedFilter
  | nonNumericType
deriving DecidableEq, Repr

/-- The `reflect.Kind` of a parsed value: the dynamic type of the `interface{}`
stored in `BenchVarValue.Value`. -/
inductive GoKind where
  | int
  | float
  | bool
  | str
deriving DecidableEq, Repr

/-- The dynamic kind of a value. -/
def kindOf : GoValue → GoKind
  | .int _ => .int
  | .float _ => .float
  | .bool _ => .bool
  | .str _ => .str

/-- `isNumeric` from `compare.go`: membership in the list of numeric kinds
(the unsigned and sized variants of the Go list cannot arise from `value`). -/
def numericKinds : List GoKind := [.int, .float]

/-- `isNumeric` from `compare.go`. -/
def isNumeric (k : GoKind) : Bool := numericKinds.contains k

/-- `getFloat` from `compare.go`: widen a numeric value to `float64`
(idealised as exact; Go rounds integers of magnitude at least `2^53`).
Returns `none` exactly where the Go function returns its error. -/
def getFloat : GoValue → Option GoFloat
  | .int n => some (.finite (n : ℚ))
  | .float f => some f
  | _ => none

/-- Go byte-wise string comparison `s1 < s2` (UTF-8 byte order equals
codepoint order, so character-wise comparison is faithful). -/
def goStrLt : GoStr → GoStr → Bool
  | [], [] => false
  | [], _ :: _ => true
  | _ :: _, [] => false
  | a :: as, b :: bs => if a = b then goStrLt as bs else decide (a < b)

/-- `BenchVarValue.equal` from `compare.go`: name check, numeric widening
comparison, kind check, then native equality. -/
def BenchVarValue.equal (b o : BenchVarValue) : Except BaseErr Bool :=
  if b.name ≠ o.name then .error .differentNames
  else if isNumeric (kindOf b.value) && isNumeric (kindOf o.value) then
    match getFloat b.value, getFloat o.value with
    | some f1, some f2 => .ok (feq f1 f2)
    | _, _ => .error .nonNumericType
  else if kindOf b.value ≠ kindOf o.value then .error .nonComparable
  else
    match b.value, o.value with
    | .str s1, .str s2 => .ok (decide (s1 = s2))
    | v1, v2 => .ok (decide (v1 = v2))

/-- `BenchVarValue.less` from `compare.go`: name check, numeric widening
comparison, kind check, lexicographic strings, otherwise undefined. -/
def BenchVarValue.less (b o : BenchVarValue) : Except BaseErr Bool :=
  if b.name ≠ o.name then .error .differentNames
  else if isNumeric (kindOf b.value) && isNumeric (kindOf o.value) then
    match getFloat b.value, getFloat o.value with
    | some f1, some f2 => .ok (flt f1 f2)
    | _, _ => .error .nonNumericType
  else if kindOf b.value ≠ kindOf o.value then .error .nonComparable
  else
    match b.value, o.value with
    | .str s1, .str s2 => .ok (goStrLt s1 s2)
    | _, _ => .error .operationNotDefined

/-- `Comparison` from `compare.go` is a string type. -/
abbrev Comparison := GoStr

/-- The comparison operator `==`. -/
def cmpEq : Comparison := ['=', '=']
/-- The comparison operator `!=`. -/
def cmpNe : Comparison := ['!', '=']
/-- The comparison operator `<`. -/
def cmpLt : Comparison := ['<']
/-- The comparison operator `>`. -/
def cmpGt : Comparison := ['>']
/-- The comparison operator `<=`. -/
def cmpLe : Comparison := ['<', '=']
/-- The comparison operator `>=`. -/
def cmpGe : Comparison := ['>', '=']

/-- `compareErr` from `compare.go`: a comparison error wrapping the two
operands, the operator and the underlying base error (its `Unwrap`). -/
structure CompareErr where
  val1 : BenchVarValue
  val2 : BenchVarValue
  comparison : Comparison
  err : BaseErr
deriving DecidableEq, Repr

/-- `Comparison.compare` from `compare.go`: dispatch on the six operator
strings; `>` is `!(eq || less)`, `<=` is `eq || less`, `>=` is `!less`;
anything else is an invalid operation. -/
def Comparison.compare (c : Comparison) (v1 v2 : BenchVarValue) : Except CompareErr Bool :=
  if c = cmpEq then
    match v1.equal v2 with
    | .error e => .error ⟨v1, v2, c, e⟩
    | .ok eq => .ok eq
  else if c = cmpNe then
    match v1.equal v2 with
    | .error e => .error ⟨v1, v2, c, e⟩
    | .ok eq => .ok (!eq)
  else if c = cmpLt then
    match v1.less v2 with
    | .error e => .error ⟨v1, v2, c, e⟩
    | .ok less => .ok less
  else if c = cmpGt then
    match v1.equal v2 with
    | .error e => .error ⟨v1, v2, c, e⟩
    | .ok eq =>
      match v1.less v2 with
      | .error e => .error ⟨v1, v2, c, e⟩
      | .ok less => .ok (!(eq || less))
  else if c = cmpLe then
    match v1.equal v2 with
    | .error e => .error ⟨v1, v2, c, e⟩
    | .ok eq =>
      match v1.less v2 with
      | .error e => .error ⟨v1, v2, c, e⟩
      | .ok less => .ok (eq || less)
  else if c = cmpGe then
    match v1.less v2 with
    | .error e => .error ⟨v1, v2, c, e⟩
    | .ok less => .ok (!less)
  else .error ⟨v1, v2, c, .invalidOperation⟩

/-- Decimal digits of a natural number, as characters. -/
def natDigits (n : Nat) : GoStr := Nat.toDigits 10 n

/-- Left-pad a digit string with zeros to width `w`. -/
def padZeros (w : Nat) (ds : GoStr) : GoStr := List.replicate (w - ds.length) '0' ++ ds

/-- Strip trailing zero digits. -/
def dropTrailingZeros (ds : GoStr) : GoStr := (ds.reverse.dropWhile (· = '0')).reverse

/-- Go `fmt` rendering of an `int` (the `%v`/`%d` verb). -/
def formatInt : Int → GoStr
  | .ofNat n => natDigits n
  | .negSucc n => '-' :: natDigits (n + 1)

/-- Go `fmt` rendering of a `bool` (the `%v` verb). -/
def formatBool (b : Bool) : GoStr := if b then "true".toList else "false".toList

/-- Go `fmt` rendering of a `float64` under the `%v` verb, i.e.
`strconv.FormatFloat(f, 'g', -1, 64)`: shortest decimal digits, fixed
notation for decimal exponents in `[-4, 21)` and scientific notation (with a
signed two-digit exponent) outside. Exact for every value whose rational is a
terminating decimal — all values in this development; non-terminating
rationals (unreachable here) are truncated at 400 fractional digits. -/
def formatFloatShortest : GoFloat → GoStr
  | .nan => "NaN".toList
  | .posInf => "+Inf".toList
  | .negInf => "-Inf".toList
  | .finite q =>
    if q = 0 then ['0']
    else
      let sgn : GoStr := if q < 0 then ['-'] else []
      let k := ((List.range 400).find? (fun j => 10 ^ j % q.den = 0)).getD 400
      let n : Nat := q.num.natAbs * 10 ^ k / q.den
      let ds := natDigits n
      let e10 : Int := (ds.length : Int) - 1 - (k : Int)
      if e10 < -4 ∨ 21 ≤ e10 then
        let ds' := dropTrailingZeros ds
        let mant : GoStr :=
          match ds' with
          | [] => ['0']
          | [d] => [d]
          | d :: rest => d :: '.' :: rest
        let esign : GoStr := if e10 < 0 then ['-'] else ['+']
        sgn ++ mant ++ 'e' :: (esign ++ padZeros 2 (natDigits e10.natAbs))
      else if k = 0 then sgn ++ ds
      else sgn ++ natDigits (n / 10 ^ k) ++ '.' :: padZeros k (natDigits (n % 10 ^ k))

/-- Go `fmt` rendering of a `float64` under the `%f` verb: fixed notation
with six fractional digits. Rounding of the magnitude is half-away-from-zero;
a genuine `float64` is never an exact decimal tie at the seventh digit, so the
tie rule is unobservable and every value in this development is exact. -/
def formatFloatF6 : GoFloat → GoStr
  | .nan => "NaN".toList
  | .posInf => "+Inf".toList
  | .negInf => "-Inf".toList
  | .finite q =>
    let sgn : GoStr := if q < 0 then ['-'] else []
    let n : Nat := (2 * (q.num.natAbs * 10 ^ 6) + q.den) / (2 * q.den)
    sgn ++ natDigits (n / 10 ^ 6) ++ '.' :: padZeros 6 (natDigits (n % 10 ^ 6))

/-- Go `fmt.Sprintf("%v", x)` on a parsed value. -/
def goFormatV : GoValue → GoStr
  | .int n => formatInt n
  | .float f => formatFloatShortest f
  | .bool b => formatBool b
  | .str s => s

/-- `BenchVarValue.String` from `compare.go`: `name=value`, using `%f` for
`float64` values and `%v` for everything else. -/
def benchVarValueString (b : BenchVarValue) : GoStr :=
  match b.value with
  | .float f => b.name ++ '=' :: formatFloatF6 f
  | _ => b.name ++ '=' :: goFormatV b.value

/-- Go `strings.Join`. -/
def joinSep (sep : GoStr) : List GoStr → GoStr
  | [] => []
  | [x] => x
  | x :: rest => x ++ sep ++ joinSep sep rest

/-- `benchVarValues.String` from `compare.go`: the rendered values joined
with commas. -/
def benchVarValuesString (vs : List BenchVarValue) : GoStr :=
  joinSep [','] (vs.map benchVarValueString)

/-- `varValComp` from the source: the parsed form of a filter expression. -/
structure VarValComp where
  varValue : BenchVarValue
  cmp : Comparison
deriving DecidableEq, Repr

/-- `varValComp.String` from the source: `fmt.Sprintf("%s%s%v", name, cmp, value)`. -/
def varValCompString (v : VarValComp) : GoStr :=
  v.varValue.name ++ v.cmp ++ goFormatV v.varValue.value

/-- The operator list of `parseValueComparison`, in source order: the
two-character operators are tried before their one-character prefixes. -/
def cmps : List Comparison := [cmpEq, cmpNe, cmpLe, cmpGe, cmpLt, cmpGt]

/-- The operator loop of `parseValueComparison`: split the input on each
operator in turn, succeeding on the first split with exactly two parts. -/
def pvcLoop : List Comparison → GoStr → Except BaseErr VarValComp
  | [], _ => .error .malformedFilter
  | cmp :: rest, s =>
    match splitGo cmp s with
    | [n, v] => .ok ⟨⟨n, value v, 0⟩, cmp⟩
    | _ => pvcLoop rest s

/-- `parseValueComparison` from the source: parse a filter expression
`name<op>value`, or fail with `errMalformedFilter`. -/
def parseValueComparison (s : GoStr) : Except BaseErr VarValComp := pvcLoop cmps s

/-- The measurement payload of a result: the relevant fields of
`golang.org/x/tools/benchmark/parse.Benchmark`, stored and re-emitted but
never interpreted by the functions under study. -/
structure BenchOutputs where
  iterations : Int
  nsPerOp : GoFloat
  allocedBytesPerOp : Nat
  allocsPerOp : Nat
  mbPerS : GoFloat
  measured : Int
deriving DecidableEq, Repr

/-- `BenchRes` from the source: one parsed benchmark line. -/
structure BenchRes where
  inputs : BenchInputs
  outputs : BenchOutputs
deriving DecidableEq, Repr

/-- `BenchResults` from the source. -/
abbrev BenchResults := List BenchRes

/-- An error returned by `BenchResults.Filter`: either the wrapped
`errMalformedFilter` parse failure or a comparison error. -/
inductive FilterError where
  | parseFailed (e : BaseErr)
  | cmpFailed (e : CompareErr)
deriving DecidableEq, Repr

/-- The inner loop of `BenchResults.Filter` over one result's variables:
a `errDifferentNames` comparison error skips that variable, any other
comparison error aborts, and a true comparison includes the result. -/
def innerFilter (cmp : Comparison) (val : BenchVarValue) : List BenchVarValue → Except CompareErr Bool
  | [] => .ok false
  | varVal :: rest =>
    match cmp.compare varVal val with
    | .error e => if e.err = .differentNames then innerFilter cmp val rest else .error e
    | .ok true => .ok true
    | .ok false => innerFilter cmp val rest

/-- The outer loop of `BenchResults.Filter` over the results. -/
def filterLoop (cmp : Comparison) (val : BenchVarValue) : List BenchRes → Except CompareErr (List BenchRes)
  | [] => .ok []
  | res :: rest =>
    match innerFilter cmp val res.inputs.varValues with
    | .error e => .error e
    | .ok inc =>
      match filterLoop cmp val rest with
      | .error e => .error e
      | .ok tail => .ok (if inc then res :: tail else tail)

/-- `BenchResults.Filter` from `compare.go`: parse the filter expression and
keep the results with a matching variable. -/
def BenchResults.Filter (b : BenchResults) (filterExpr : GoStr) : Except FilterError BenchResults :=
  match parseValueComparison filterExpr with
  | .error e => .error (.parseFailed e)
  | .ok varValCmp =>
    match filterLoop varValCmp.cmp varValCmp.varValue b with
    | .error e => .error (.cmpFailed e)
    | .ok filtered => .ok filtered

/-- The nested collection loops of `BenchResults.Group`: for each variable of
the result in sequence order, append it once for every matching name in the
group-by list. -/
def groupVals (varValues : List BenchVarValue) (groupBy : List GoStr) : List BenchVarValue :=
  varValues.flatMap fun varValue =>
    groupBy.flatMap fun groupName =>
      if varValue.name = groupName then [varValue] else []

/-- `GroupedResults`: the Go `map[string]BenchResults` is embedded as an
association list in key-insertion order; the claims depend only on which
results sit under which key. -/
abbrev GroupedResults := List (GoStr × BenchResults)

/-- Appending a result under a key: extend the key's bucket, or add a new key. -/
def updateGroup : GroupedResults → GoStr → BenchRes → GroupedResults
  | [], k, r => [(k, [r])]
  | (k', rs) :: t, k, r =>
    if k' = k then (k', rs ++ [r]) :: t else (k', rs) :: updateGroup t k r

/-- The result loop of `BenchResults.Group`: results missing one of the
requested variables are dropped; the rest are keyed by the rendered matched
variables. -/
def groupLoop (groupBy : List GoStr) : List BenchRes → GroupedResults → GroupedResults
  | [], m => m
  | res :: rest, m =>
    let gv := groupVals res.inputs.varValues groupBy
    if gv.length ≠ groupBy.length then groupLoop groupBy rest m
    else groupLoop groupBy rest (updateGroup m (benchVarValuesString gv) res)

/-- `BenchResults.Group` from `compare.go`: an empty group-by list yields the
single empty-string key holding a copy of all results. -/
def BenchResults.Group (b : BenchResults) (groupBy : List GoStr) : GroupedResults :=
  if groupBy.isEmpty then [([], b)]
  else groupLoop groupBy b []

/-- The four results of the repository's `sampleBench` test fixture
(`y`, `delta`, `start_x`, `end_x` and optionally `abs_val` under the
`areaUnder`/`max` sub-benchmarks of `BenchmarkMath`). -/
def sampleResults : BenchResults :=
  [⟨⟨[⟨"y".toList, .str "sin(x)".toList, 2⟩,
      ⟨"delta".toList, .float (.finite (mkRat 1 1000)), 3⟩,
      ⟨"start_x".toList, .int (-2), 4⟩,
      ⟨"end_x".toList, .int 1, 5⟩,
      ⟨"abs_val".toList, .bool true, 6⟩],
     [⟨"areaUnder".toList, 1⟩], 4⟩,
    ⟨21801, .finite 55357, 0, 0, .finite 0, 13⟩⟩,
   ⟨⟨[⟨"y".toList, .str "2x+3".toList, 2⟩,
      ⟨"delta".toList, .float (.finite 1), 3⟩,
      ⟨"start_x".toList, .int (-1), 4⟩,
      ⟨"end_x".toList, .int 2, 5⟩,
      ⟨"abs_val".toList, .bool false, 6⟩],
     [⟨"areaUnder".toList, 1⟩], 4⟩,
    ⟨88335925, .finite (mkRat 133 10), 0, 0, .finite 0, 13⟩⟩,
   ⟨⟨[⟨"y".toList, .str "2x+3".toList, 2⟩,
      ⟨"delta".toList, .float (.finite (mkRat 1 1000)), 3⟩,
      ⟨"start_x".toList, .int (-2), 4⟩,
      ⟨"end_x".toList, .int 1, 5⟩],
     [⟨"max".toList, 1⟩], 4⟩,
    ⟨56282, .finite 20361, 0, 0, .finite 0, 13⟩⟩,
   ⟨⟨[⟨"y".toList, .str "sin(x)".toList, 2⟩,
      ⟨"delta".toList, .float (.finite 1), 3⟩,
      ⟨"start_x".toList, .int (-1), 4⟩,
      ⟨"end_x".toList, .int 2, 5⟩],
     [⟨"max".toList, 1⟩], 4⟩,
    ⟨16381138, .finite (mkRat 627 10), 0, 0, .finite 0, 13⟩⟩]

section Lemmas

set_option maxRecDepth 100000

/-- `isPrefixOf` exhibits a suffix decomposition. -/
theorem isPrefixOf_append {l s : GoStr} (h : l.isPrefixOf s = true) :
    ∃ t, s = l ++ t := by
  induction l generalizing s with
  | nil => exact ⟨s, rfl⟩
  | cons a l' ih =>
    cases s with
    | nil => simp [List.isPrefixOf] at h
    | cons b s' =>
      simp only [List.isPrefixOf, Bool.and_eq_true, beq_iff_eq] at h
      obtain ⟨rfl, h2⟩ := h
      obtain ⟨t, rfl⟩ := ih h2
      exact ⟨t, rfl⟩

/-- A `splitAux` scan never produces an empty field list. -/
theorem splitAux_ne_nil (c0 : Char) (sep' : GoStr) :
    ∀ (s : GoStr) (fuel : Nat) (acc : GoStr), splitAux c0 sep' fuel acc s ≠ [] := by
  intro s
  induction s with
  | nil => intro fuel acc; cases fuel <;> simp [splitAux]
  | cons c rest ih =>
    intro fuel acc
    cases fuel with
    | zero => simp [splitAux]
    | succ f =>
      rw [splitAux]
      split
      · simp
      · exact ih f (c :: acc)

/-- When the separator has no occurrence in `s`, the scan yields a single
field, for any fuel. -/
theorem splitAux_no_occurrence (c0 : Char) (sep' : GoStr) :
    ∀ (s : GoStr) (fuel : Nat) (acc : GoStr), containsSeq (c0 :: sep') s = false →
      splitAux c0 sep' fuel acc s = [acc.reverse ++ s] := by
  intro s
  induction s with
  | nil => intro fuel acc _; cases fuel <;> simp [splitAux]
  | cons c rest ih =>
    intro fuel acc h
    simp only [containsSeq, Bool.or_eq_false_iff] at h
    cases fuel with
    | zero => simp [splitAux]
    | succ f =>
      rw [splitAux, if_neg (by simp [h.1])]
      simpa using ih f (c :: acc) h.2

/-- A single-field scan result is the whole remaining input. -/
theorem splitAux_single (c0 : Char) (sep' : GoStr) :
    ∀ (s : GoStr) (fuel : Nat) (acc a : GoStr), splitAux c0 sep' fuel acc s = [a] →
      a = acc.reverse ++ s := by
  intro s
  induction s with
  | nil =>
    intro fuel acc a h
    cases fuel <;> simp [splitAux] at h <;> simp [h]
  | cons c rest ih =>
    intro fuel acc a h
    cases fuel with
    | zero => simp [splitAux] at h; simp [h]
    | succ f =>
      rw [splitAux] at h
      split at h
      · injection h with h1 h2
        exact absurd h2 (splitAux_ne_nil c0 sep' _ f [])
      · simpa using ih f (c :: acc) a h

/-- A two-field scan result decomposes the input around one separator
occurrence. -/
theorem splitAux_pair (c0 : Char) (sep' : GoStr) :
    ∀ (s : GoStr) (fuel : Nat) (acc a b : GoStr), s.length ≤ fuel →
      splitAux c0 sep' fuel acc s = [a, b] →
      acc.reverse ++ s = a ++ (c0 :: sep') ++ b := by
  intro s
  induction s with
  | nil =>
    intro fuel acc a b _ h
    cases fuel <;> simp [splitAux] at h
  | cons c rest ih =>
    intro fuel acc a b hfuel h
    cases fuel with
    | zero => simp at hfuel
    | succ f =>
      rw [splitAux] at h
      split at h
      next hpre =>
        injection h with h1 h2
        subst h1
        have hb : b = rest.drop sep'.length := by
          simpa using splitAux_single c0 sep' (rest.drop sep'.length) f [] b h2
        obtain ⟨t, hdec⟩ := isPrefixOf_append hpre
        injection hdec with hc hrest
        subst hc
        subst hrest
        subst hb
        simp [List.drop_left]
      next hpre =>
        simpa [List.append_assoc] using
          ih f (c :: acc) a b (by simpa using Nat.le_of_succ_le_succ hfuel) h

/-- A two-field `splitGo` result decomposes the input around the separator. -/
theorem splitGo_pair {sep s a b : GoStr} (hne : sep ≠ [])
    (h : splitGo sep s = [a, b]) : s = a ++ sep ++ b := by
  cases sep with
  | nil => exact absurd rfl hne
  | cons c0 sep' =>
    simpa using splitAux_pair c0 sep' s s.length [] a b le_rfl h

/-- A value with a numeric kind widens. -/
theorem getFloat_of_isNumeric {v : GoValue} (h : isNumeric (kindOf v) = true) :
    ∃ f, getFloat v = some f := by
  cases v <;> simp_all [isNumeric, kindOf, numericKinds, getFloat]

/-- A value that widens has a numeric kind. -/
theorem isNumeric_of_getFloat {v : GoValue} {f : GoFloat} (h : getFloat v = some f) :
    isNumeric (kindOf v) = true := by
  cases v <;> simp_all [isNumeric, kindOf, numericKinds, getFloat]

/-- On same-named values that both widen, `equal` and `less` compare the
widened floats and return no error. -/
theorem equal_less_numeric {v1 v2 : BenchVarValue} {f1 f2 : GoFloat}
    (hn : v1.name = v2.name)
    (hf1 : getFloat v1.value = some f1) (hf2 : getFloat v2.value = some f2) :
    v1.equal v2 = .ok (feq f1 f2) ∧ v1.less v2 = .ok (flt f1 f2) := by
  have h1 := isNumeric_of_getFloat hf1
  have h2 := isNumeric_of_getFloat hf2
  constructor <;>
    simp [BenchVarValue.equal, BenchVarValue.less, hn, h1, h2, hf1, hf2]

/-- The six operators of `compare` in terms of the underlying `equal` and
`less` outcomes, when neither errors. -/
theorem compare_ops {v1 v2 : BenchVarValue} {e l : Bool}
    (heq : v1.equal v2 = .ok e) (hlt : v1.less v2 = .ok l) :
    Comparison.compare cmpEq v1 v2 = .ok e ∧
    Comparison.compare cmpNe v1 v2 = .ok (!e) ∧
    Comparison.compare cmpLt v1 v2 = .ok l ∧
    Comparison.compare cmpGt v1 v2 = .ok (!(e || l)) ∧
    Comparison.compare cmpLe v1 v2 = .ok (e || l) ∧
    Comparison.compare cmpGe v1 v2 = .ok (!l) := by
  refine ⟨?_, ?_, ?_, ?_, ?_, ?_⟩ <;>
    simp [Comparison.compare, cmpEq, cmpNe, cmpLt, cmpGt, cmpLe, cmpGe, heq, hlt]

/-- C1: decomposing the full case name
`BenchmarkMath/areaUnder/y=sin(x)/delta=0.001000/start_x=-2/end_x=1/abs_val=true-4`
via `parseInfo` yields top-level name `BenchmarkMath`, the free segment
`areaUnder` at position 1, the variables `y="sin(x)"` (text) at position 2,
`delta=0.001` (float) at position 3, `start_x=-2` (integer) at position 4,
`end_x=1` (integer) at position 5, `abs_val=true` (boolean) at position 6,
and `MaxProcs` 4, with no error. -/
theorem c1_sample_case_decomposition :
    parseInfo "BenchmarkMath/areaUnder/y=sin(x)/delta=0.001000/start_x=-2/end_x=1/abs_val=true-4".toList =
      .ok ("BenchmarkMath".toList,
        { varValues := [⟨"y".toList, .str "sin(x)".toList, 2⟩,
                        ⟨"delta".toList, .float (.finite (mkRat 1 1000)), 3⟩,
                        ⟨"start_x".toList, .int (-2), 4⟩,
                        ⟨"end_x".toList, .int 1, 5⟩,
                        ⟨"abs_val".toList, .bool true, 6⟩],
          subs := [⟨"areaUnder".toList, 1⟩],
          maxProcs := 4 }) := by decide

/-- C2 (amended): the value typer tries, in strict order, integer parse,
floating-point parse, then boolean parse, falling back to the token as text
and never returning an error; the boolean stage accepts exactly the twelve
`strconv.ParseBool` spellings (`1 t T TRUE true True 0 f F FALSE false False`),
not only the case-sensitive `true`/`false`. -/
theorem c2_value_conversion_order (s : GoStr) :
    (value s = match goAtoi s with
      | some n => GoValue.int n
      | none => match goParseFloat s with
        | some f => GoValue.float f
        | none => match goParseBool s with
          | some b => GoValue.bool b
          | none => GoValue.str s) ∧
    ((goParseBool s).isSome ↔
      (s ∈ ["1".toList, "t".toList, "T".toList, "TRUE".toList, "true".toList, "True".toList] ∨
       s ∈ ["0".toList, "f".toList, "F".toList, "FALSE".toList, "false".toList, "False".toList])) := by
  constructor
  · cases h1 : goAtoi s <;> cases h2 : goParseFloat s <;> cases h3 : goParseBool s <;>
      simp [value, firstConv, valueConvs, h1, h2, h3]
  · by_cases ht : s ∈ [['1'], ['t'], ['T'], ['T', 'R', 'U', 'E'], ['t', 'r', 'u', 'e'], ['T', 'r', 'u', 'e']] <;>
      by_cases hf : s ∈ [['0'], ['f'], ['F'], ['F', 'A', 'L', 'S', 'E'], ['f', 'a', 'l', 's', 'e'], ['F', 'a', 'l', 's', 'e']] <;>
      simp only [List.mem_cons, List.not_mem_nil, or_false] at ht hf <;>
      simp [goParseBool, ht, hf]

/-- C2, counterexample to the claim as stated: the token `True` is accepted
by the boolean stage (Go's `strconv.ParseBool` is not restricted to the
case-sensitive spellings `true`/`false`), so the typer does not fall back to
text on it. -/
theorem c2_counterexample_capitalized_true :
    value "True".toList = GoValue.bool true ∧
    value "True".toList ≠ GoValue.str "True".toList :=
  ⟨by decide, by decide⟩

/-- C3: for same-named variable values whose underlying values are both of
numeric kind (integer or float, in any combination), `equal` and `less` (and
hence the `==`, `!=`, `<` comparison operators) compare the two values
numerically after widening both to floating point and return a boolean with
no error. -/
theorem c3_numeric_pairs_widen_to_float (v1 v2 : BenchVarValue)
    (hn : v1.name = v2.name)
    (h1 : isNumeric (kindOf v1.value) = true) (h2 : isNumeric (kindOf v2.value) = true) :
    ∃ f1 f2, getFloat v1.value = some f1 ∧ getFloat v2.value = some f2 ∧
      v1.equal v2 = .ok (feq f1 f2) ∧ v1.less v2 = .ok (flt f1 f2) ∧
      Comparison.compare cmpEq v1 v2 = .ok (feq f1 f2) ∧
      Comparison.compare cmpNe v1 v2 = .ok (!(feq f1 f2)) ∧
      Comparison.compare cmpLt v1 v2 = .ok (flt f1 f2) := by
  obtain ⟨f1, hf1⟩ := getFloat_of_isNumeric h1
  obtain ⟨f2, hf2⟩ := getFloat_of_isNumeric h2
  obtain ⟨heq, hlt⟩ := equal_less_numeric hn hf1 hf2
  obtain ⟨hEq, hNe, hLt, _, _, _⟩ := compare_ops heq hlt
  exact ⟨f1, f2, hf1, hf2, heq, hlt, hEq, hNe, hLt⟩

/-- Witness for C3 at `a=2` (integer) versus `a=2.5` (float). -/
theorem c3_numeric_pairs_widen_to_float_witness :
    ∃ f1 f2, getFloat (GoValue.int 2) = some f1 ∧
      getFloat (GoValue.float (.finite (mkRat 5 2))) = some f2 ∧
      BenchVarValue.equal ⟨"a".toList, .int 2, 1⟩ ⟨"a".toList, .float (.finite (mkRat 5 2)), 2⟩ = .ok (feq f1 f2) ∧
      BenchVarValue.less ⟨"a".toList, .int 2, 1⟩ ⟨"a".toList, .float (.finite (mkRat 5 2)), 2⟩ = .ok (flt f1 f2) ∧
      Comparison.compare cmpEq ⟨"a".toList, .int 2, 1⟩ ⟨"a".toList, .float (.finite (mkRat 5 2)), 2⟩ = .ok (feq f1 f2) ∧
      Comparison.compare cmpNe ⟨"a".toList, .int 2, 1⟩ ⟨"a".toList, .float (.finite (mkRat 5 2)), 2⟩ = .ok (!(feq f1 f2)) ∧
      Comparison.compare cmpLt ⟨"a".toList, .int 2, 1⟩ ⟨"a".toList, .float (.finite (mkRat 5 2)), 2⟩ = .ok (flt f1 f2) :=
  c3_numeric_pairs_widen_to_float ⟨"a".toList, .int 2, 1⟩ ⟨"a".toList, .float (.finite (mkRat 5 2)), 2⟩
    rfl (by decide) (by decide)

/-- C6: on same-named variable values of numeric kinds, `<` is the negation
of `>=` and `>` is the negation of `<=`, with identical error outcomes
(neither side errors under these hypotheses, and `Except.map` preserves any
error identically). -/
theorem c6_ordering_negation_duality (v1 v2 : BenchVarValue)
    (hn : v1.name = v2.name)
    (h1 : isNumeric (kindOf v1.value) = true) (h2 : isNumeric (kindOf v2.value) = true) :
    Comparison.compare cmpLt v1 v2 = (Comparison.compare cmpGe v1 v2).map (fun b => !b) ∧
    Comparison.compare cmpGt v1 v2 = (Comparison.compare cmpLe v1 v2).map (fun b => !b) := by
  obtain ⟨f1, hf1⟩ := getFloat_of_isNumeric h1
  obtain ⟨f2, hf2⟩ := getFloat_of_isNumeric h2
  obtain ⟨heq, hlt⟩ := equal_less_numeric hn hf1 hf2
  obtain ⟨_, _, hLt, hGt, hLe, hGe⟩ := compare_ops heq hlt
  rw [hLt, hGt, hLe, hGe]
  simp [Except.map]

/-- Witness for C6 at `a=2` (integer) versus `a=2.5` (float). -/
theorem c6_ordering_negation_duality_witness :
    Comparison.compare cmpLt ⟨"a".toList, .int 2, 1⟩ ⟨"a".toList, .float (.finite (mkRat 5 2)), 2⟩ =
      (Comparison.compare cmpGe ⟨"a".toList, .int 2, 1⟩ ⟨"a".toList, .float (.finite (mkRat 5 2)), 2⟩).map (fun b => !b) ∧
    Comparison.compare cmpGt ⟨"a".toList, .int 2, 1⟩ ⟨"a".toList, .float (.finite (mkRat 5 2)), 2⟩ =
      (Comparison.compare cmpLe ⟨"a".toList, .int 2, 1⟩ ⟨"a".toList, .float (.finite (mkRat 5 2)), 2⟩).map (fun b => !b) :=
  c6_ordering_negation_duality ⟨"a".toList, .int 2, 1⟩ ⟨"a".toList, .float (.finite (mkRat 5 2)), 2⟩
    rfl (by decide) (by decide)

/-- Splitting on a single character yields one more field than the
character's occurrence count. -/
theorem splitAux_single_char_length (c0 : Char) :
    ∀ (s : GoStr) (fuel : Nat) (acc : GoStr), s.length ≤ fuel →
      (splitAux c0 [] fuel acc s).length = s.count c0 + 1 := by
  intro s
  induction s with
  | nil => intro fuel acc _; cases fuel <;> simp [splitAux]
  | cons c rest ih =>
    intro fuel acc hfuel
    cases fuel with
    | zero => simp at hfuel
    | succ f =>
      have hrest : rest.length ≤ f := by simpa using Nat.le_of_succ_le_succ hfuel
      rw [splitAux]
      by_cases hc : c0 = c
      · subst hc
        rw [if_pos (by simp [List.isPrefixOf])]
        simpa using ih f [] hrest
      · rw [if_neg (by simp [List.isPrefixOf, hc])]
        have hcc : ¬ c = c0 := fun h => hc h.symm
        simp [ih f (c :: acc) hrest, List.count_cons, hcc]

/-- `strings.Split` on a single character: field count is occurrence count
plus one. -/
theorem splitGo_single_char_length (c0 : Char) (t : GoStr) :
    (splitGo [c0] t).length = t.count c0 + 1 :=
  splitAux_single_char_length c0 t t.length [] le_rfl

/-- One step of the component loop: either the head splits into exactly two
fields and becomes the first variable, or it becomes the first segment. -/
theorem collectInputs_cons_cases (start : Nat) (sub : GoStr) (rest : List GoStr) :
    (∃ n v, splitGo ['='] sub = [n, v] ∧
      (collectInputs start (sub :: rest)).1 =
        ⟨n, value v, start⟩ :: (collectInputs (start + 1) rest).1 ∧
      (collectInputs start (sub :: rest)).2 = (collectInputs (start + 1) rest).2) ∨
    ((splitGo ['='] sub).length ≠ 2 ∧
      (collectInputs start (sub :: rest)).1 = (collectInputs (start + 1) rest).1 ∧
      (collectInputs start (sub :: rest)).2 =
        ⟨sub, start⟩ :: (collectInputs (start + 1) rest).2) := by
  cases hsp : splitGo ['='] sub with
  | nil => exact .inr ⟨by simp [hsp], by simp [collectInputs, hsp], by simp [collectInputs, hsp]⟩
  | cons n t1 =>
    cases t1 with
    | nil => exact .inr ⟨by simp [hsp], by simp [collectInputs, hsp], by simp [collectInputs, hsp]⟩
    | cons v t2 =>
      cases t2 with
      | nil => exact .inl ⟨n, v, rfl, by simp [collectInputs, hsp], by simp [collectInputs, hsp]⟩
      | cons w t3 =>
        exact .inr ⟨by simp [hsp], by simp [collectInputs, hsp], by simp [collectInputs, hsp]⟩

/-- Membership of the component loop's outputs: the component at offset `k`
lands in the variable list when its `=`-split has exactly two fields, and in
the segment list otherwise, with position `start + k`. -/
theorem collectInputs_mem :
    ∀ (comps : List GoStr) (start k : Nat) (hk : k < comps.length),
      (∀ a b, splitGo ['='] comps[k] = [a, b] →
        (⟨a, value b, start + k⟩ : BenchVarValue) ∈ (collectInputs start comps).1) ∧
      ((splitGo ['='] comps[k]).length ≠ 2 →
        (⟨comps[k], start + k⟩ : BenchSub) ∈ (collectInputs start comps).2) := by
  intro comps
  induction comps with
  | nil => intro start k hk; simp at hk
  | cons sub rest ih =>
    intro start k hk
    cases k with
    | zero =>
      rcases collectInputs_cons_cases start sub rest with
        ⟨n, v, hsp, hfst, hsnd⟩ | ⟨hlen2, hfst, hsnd⟩
      · refine ⟨fun a b hab => ?_, fun hlen => ?_⟩
        · rw [List.getElem_cons_zero] at hab
          rw [hab] at hsp
          injection hsp with h1 h2
          injection h2 with h2 _
          rw [hfst, Nat.add_zero, h1, h2]
          exact List.mem_cons_self ..
        · rw [List.getElem_cons_zero] at hlen
          rw [hsp] at hlen
          simp at hlen
      · refine ⟨fun a b hab => ?_, fun _ => ?_⟩
        · rw [List.getElem_cons_zero] at hab
          exact absurd (by rw [hab]; rfl : (splitGo ['='] sub).length = 2) hlen2
        · rw [hsnd, Nat.add_zero, List.getElem_cons_zero]
          exact List.mem_cons_self ..
    | succ k' =>
      have hk' : k' < rest.length := by simpa using Nat.lt_of_succ_lt_succ hk
      have harith : start + (k' + 1) = (start + 1) + k' := by omega
      obtain ⟨ihv, ihs⟩ := ih (start + 1) k' hk'
      rcases collectInputs_cons_cases start sub rest with
        ⟨n, v, hsp, hfst, hsnd⟩ | ⟨hlen2, hfst, hsnd⟩
      · refine ⟨fun a b hab => ?_, fun hlen => ?_⟩
        · rw [List.getElem_cons_succ] at hab
          rw [hfst, harith]
          exact List.mem_cons_of_mem _ (ihv a b hab)
        · rw [List.getElem_cons_succ] at hlen
          rw [hsnd]
          simp only [List.getElem_cons_succ, harith]
          exact ihs hlen
      · refine ⟨fun a b hab => ?_, fun hlen => ?_⟩
        · rw [List.getElem_cons_succ] at hab
          rw [hfst, harith]
          exact ihv a b hab
        · rw [List.getElem_cons_succ] at hlen
          rw [hsnd]
          simp only [List.getElem_cons_succ, harith]
          exact List.mem_cons_of_mem _ (ihs hlen)

/-- Every position produced by the component loop is at least `start`. -/
theorem collectInputs_pos_lb :
    ∀ (comps : List GoStr) (start : Nat),
      (∀ v ∈ (collectInputs start comps).1, start ≤ v.position) ∧
      (∀ u ∈ (collectInputs start comps).2, start ≤ u.position) := by
  intro comps
  induction comps with
  | nil => intro start; simp [collectInputs]
  | cons sub rest ih =>
    intro start
    obtain ⟨ihv, ihs⟩ := ih (start + 1)
    rcases collectInputs_cons_cases start sub rest with
      ⟨n, v, _, hfst, hsnd⟩ | ⟨_, hfst, hsnd⟩ <;>
      rw [hfst, hsnd] <;>
      refine ⟨fun x hx => ?_, fun x hx => ?_⟩
    · rcases List.mem_cons.mp hx with rfl | hx'
      · exact le_rfl
      · exact Nat.le_of_succ_le (ihv x hx')
    · exact Nat.le_of_succ_le (ihs x hx)
    · exact Nat.le_of_succ_le (ihv x hx)
    · rcases List.mem_cons.mp hx with rfl | hx'
      · exact le_rfl
      · exact Nat.le_of_succ_le (ihs x hx')

/-- The component loop's outputs have strictly increasing positions within
each list, and the two lists never share a position. -/
theorem collectInputs_sorted :
    ∀ (comps : List GoStr) (start : Nat),
      (collectInputs start comps).1.Pairwise (fun a b => a.position < b.position) ∧
      (collectInputs start comps).2.Pairwise (fun a b => a.position < b.position) ∧
      (∀ v ∈ (collectInputs start comps).1, ∀ u ∈ (collectInputs start comps).2,
        v.position ≠ u.position) := by
  intro comps
  induction comps with
  | nil => intro start; simp [collectInputs]
  | cons sub rest ih =>
    intro start
    obtain ⟨ihp1, ihp2, ihx⟩ := ih (start + 1)
    obtain ⟨lb1, lb2⟩ := collectInputs_pos_lb rest (start + 1)
    rcases collectInputs_cons_cases start sub rest with
      ⟨n, v, _, hfst, hsnd⟩ | ⟨_, hfst, hsnd⟩ <;> rw [hfst, hsnd]
    · refine ⟨List.pairwise_cons.mpr ⟨fun x hx => ?_, ihp1⟩, ihp2, fun x hx u hu => ?_⟩
      · exact Nat.lt_of_succ_le (lb1 x hx)
      · rcases List.mem_cons.mp hx with rfl | hx'
        · exact Nat.ne_of_lt (Nat.lt_of_succ_le (lb2 u hu))
        · exact ihx x hx' u hu
    · refine ⟨ihp1, List.pairwise_cons.mpr ⟨fun x hx => ?_, ihp2⟩, fun x hx u hu => ?_⟩
      · exact Nat.lt_of_succ_le (lb2 x hx)
      · rcases List.mem_cons.mp hu with rfl | hu'
        · exact Nat.ne_of_gt (Nat.lt_of_succ_le (lb1 x hx))
        · exact ihx x hx u hu'

/-- `parseInfo` succeeds, with the expected structure, whenever the regex
matches and the optional `GOMAXPROCS` suffix parses. -/
theorem parseInfo_ok_of_match {s info : GoStr} {pd : Option GoStr} {mp : Int}
    (h : benchInfoMatch s = some (info, pd))
    (hmp : (match pd with | none => some 1 | some ds => goAtoi ds) = some mp) :
    parseInfo s = .ok ((splitGo ['/'] info).headD [],
      ⟨(collectInputs 1 ((splitGo ['/'] info).drop 1)).1,
       (collectInputs 1 ((splitGo ['/'] info).drop 1)).2, mp⟩) := by
  cases pd with
  | none =>
    injection hmp with hmp
    simp [parseInfo, h, ← hmp]
  | some ds =>
    have hmp' : goAtoi ds = some mp := hmp
    simp [parseInfo, h, hmp']

/-- Inversion of a successful `parseInfo`: the result is built by the
component loop on the slashed info string, for some matched regex output. -/
theorem parseInfo_ok_inv {s nm : GoStr} {inputs : BenchInputs}
    (h : parseInfo s = .ok (nm, inputs)) :
    ∃ info pd mp, benchInfoMatch s = some (info, pd) ∧
      nm = (splitGo ['/'] info).headD [] ∧
      inputs = ⟨(collectInputs 1 ((splitGo ['/'] info).drop 1)).1,
                (collectInputs 1 ((splitGo ['/'] info).drop 1)).2, mp⟩ := by
  cases hbm : benchInfoMatch s with
  | none => rw [parseInfo, hbm] at h; exact absurd h (by simp)
  | some r =>
    obtain ⟨info, pd⟩ := r
    refine ⟨info, pd, inputs.maxProcs, rfl, ?_⟩
    cases pd with
    | none =>
      rw [parseInfo, hbm] at h
      simp only at h
      injection h with h
      injection h with h1 h2
      exact ⟨h1.symm, by rw [← h2]⟩
    | some ds =>
      rw [parseInfo, hbm] at h
      cases hat : goAtoi ds with
      | none => simp [hat] at h
      | some n =>
        simp only [hat] at h
        injection h with h
        injection h with h1 h2
        exact ⟨h1.symm, by rw [← h2]⟩

/-- C4: in name decomposition, whenever the info regex matches (and the
optional width suffix parses), `parseInfo` succeeds regardless of the
components' contents — a component with several `=` never causes an error —
and every slash component after the top-level name containing exactly one
`=` becomes a variable `⟨name, value token, i⟩` at its slash index `i`,
while every other component becomes a free segment at its index. -/
theorem c4_component_classification (s info : GoStr) (pd : Option GoStr) (mp : Int)
    (h : benchInfoMatch s = some (info, pd))
    (hmp : (match pd with | none => some 1 | some ds => goAtoi ds) = some mp) :
    ∃ inputs : BenchInputs,
      parseInfo s = .ok ((splitGo ['/'] info).headD [], inputs) ∧
      inputs.maxProcs = mp ∧
      ∀ k (hk : k + 1 < (splitGo ['/'] info).length),
        ((splitGo ['/'] info)[k + 1].count '=' = 1 →
          ∃ a b, splitGo ['='] (splitGo ['/'] info)[k + 1] = [a, b] ∧
            (⟨a, value b, k + 1⟩ : BenchVarValue) ∈ inputs.varValues) ∧
        ((splitGo ['/'] info)[k + 1].count '=' ≠ 1 →
          (⟨(splitGo ['/'] info)[k + 1], k + 1⟩ : BenchSub) ∈ inputs.subs) := by
  refine ⟨_, parseInfo_ok_of_match h hmp, rfl, fun k hk => ?_⟩
  have hdk : k < ((splitGo ['/'] info).drop 1).length := by
    simp only [List.length_drop]
    omega
  have hget : ((splitGo ['/'] info).drop 1)[k] = (splitGo ['/'] info)[k + 1] := by
    rw [List.getElem_drop]
    simp [Nat.add_comm]
  obtain ⟨hvar, hsub⟩ := collectInputs_mem ((splitGo ['/'] info).drop 1) 1 k hdk
  rw [hget] at hvar hsub
  have hcount : (splitGo ['='] (splitGo ['/'] info)[k + 1]).length =
      (splitGo ['/'] info)[k + 1].count '=' + 1 :=
    splitGo_single_char_length '=' _
  constructor
  · intro hone
    have hlen2 : (splitGo ['='] (splitGo ['/'] info)[k + 1]).length = 2 := by omega
    cases hs : splitGo ['='] (splitGo ['/'] info)[k + 1] with
    | nil => rw [hs] at hlen2; simp at hlen2
    | cons a t1 =>
      cases t1 with
      | nil => rw [hs] at hlen2; simp at hlen2
      | cons b t2 =>
        have ht2 : t2 = [] := by
          rw [hs] at hlen2
          simpa using hlen2
        subst ht2
        refine ⟨a, b, rfl, ?_⟩
        have hm := hvar a b hs
        rw [Nat.add_comm 1 k] at hm
        exact hm
  · intro hne
    have hlen : (splitGo ['='] (splitGo ['/'] info)[k + 1]).length ≠ 2 := by omega
    have hm := hsub hlen
    rw [Nat.add_comm 1 k] at hm
    exact hm

/-- Witness for C4 on `BenchmarkX/a=b=c/d=5-2`: the double-`=` component
`a=b=c` becomes a free segment, `d=5` a variable, with no error. -/
theorem c4_component_classification_witness :
    ∃ inputs : BenchInputs,
      parseInfo "BenchmarkX/a=b=c/d=5-2".toList =
        .ok ((splitGo ['/'] "BenchmarkX/a=b=c/d=5".toList).headD [], inputs) ∧
      inputs.maxProcs = 2 ∧
      ∀ k (hk : k + 1 < (splitGo ['/'] "BenchmarkX/a=b=c/d=5".toList).length),
        ((splitGo ['/'] "BenchmarkX/a=b=c/d=5".toList)[k + 1].count '=' = 1 →
          ∃ a b, splitGo ['='] (splitGo ['/'] "BenchmarkX/a=b=c/d=5".toList)[k + 1] = [a, b] ∧
            (⟨a, value b, k + 1⟩ : BenchVarValue) ∈ inputs.varValues) ∧
        ((splitGo ['/'] "BenchmarkX/a=b=c/d=5".toList)[k + 1].count '=' ≠ 1 →
          (⟨(splitGo ['/'] "BenchmarkX/a=b=c/d=5".toList)[k + 1], k + 1⟩ : BenchSub) ∈ inputs.subs) :=
  c4_component_classification "BenchmarkX/a=b=c/d=5-2".toList "BenchmarkX/a=b=c/d=5".toList
    (some "2".toList) 2 (by decide) (by decide)

/-- C5: in every successful decomposition, positions strictly increase in
encounter order within the variable list and within the segment list, and no
position is shared between the two lists. -/
theorem c5_positions_distinct_increasing (s nm : GoStr) (inputs : BenchInputs)
    (h : parseInfo s = .ok (nm, inputs)) :
    inputs.varValues.Pairwise (fun a b => a.position < b.position) ∧
    inputs.subs.Pairwise (fun a b => a.position < b.position) ∧
    ∀ v ∈ inputs.varValues, ∀ u ∈ inputs.subs, v.position ≠ u.position := by
  obtain ⟨info, pd, mp, _, _, hinputs⟩ := parseInfo_ok_inv h
  subst hinputs
  exact collectInputs_sorted ((splitGo ['/'] info).drop 1) 1

/-- Witness for C5 on the sample case name. -/
theorem c5_positions_distinct_increasing_witness :
    ([⟨"y".toList, GoValue.str "sin(x)".toList, 2⟩,
      ⟨"delta".toList, GoValue.float (.finite (mkRat 1 1000)), 3⟩,
      ⟨"start_x".toList, GoValue.int (-2), 4⟩,
      ⟨"end_x".toList, GoValue.int 1, 5⟩,
      ⟨"abs_val".toList, GoValue.bool true, 6⟩] :
        List BenchVarValue).Pairwise (fun a b => a.position < b.position) ∧
    ([⟨"areaUnder".toList, 1⟩] : List BenchSub).Pairwise (fun a b => a.position < b.position) ∧
    ∀ v ∈ ([⟨"y".toList, GoValue.str "sin(x)".toList, 2⟩,
      ⟨"delta".toList, GoValue.float (.finite (mkRat 1 1000)), 3⟩,
      ⟨"start_x".toList, GoValue.int (-2), 4⟩,
      ⟨"end_x".toList, GoValue.int 1, 5⟩,
      ⟨"abs_val".toList, GoValue.bool true, 6⟩] : List BenchVarValue),
      ∀ u ∈ ([⟨"areaUnder".toList, 1⟩] : List BenchSub), v.position ≠ u.position :=
  c5_positions_distinct_increasing
    "BenchmarkMath/areaUnder/y=sin(x)/delta=0.001000/start_x=-2/end_x=1/abs_val=true-4".toList
    "BenchmarkMath".toList
    ⟨[⟨"y".toList, .str "sin(x)".toList, 2⟩,
      ⟨"delta".toList, .float (.finite (mkRat 1 1000)), 3⟩,
      ⟨"start_x".toList, .int (-2), 4⟩,
      ⟨"end_x".toList, .int 1, 5⟩,
      ⟨"abs_val".toList, .bool true, 6⟩],
     [⟨"areaUnder".toList, 1⟩], 4⟩ (by decide)

/-- C7: during `Filter`, a per-variable comparison failing with the
`errDifferentNames` base error is skipped — that variable simply does not
match and filtering continues — while a comparison error of any other kind
aborts the whole loop and is returned with no filtered results; in
particular the filter `y==2` on the sample results (where `y` holds the
string `sin(x)`) aborts the entire call with the `errNonComparable` error. -/
theorem c7_filter_error_policy :
    (∀ (c : Comparison) (val v : BenchVarValue) (vs : List BenchVarValue) (e : CompareErr),
      Comparison.compare c v val = .error e → e.err = .differentNames →
      innerFilter c val (v :: vs) = innerFilter c val vs) ∧
    (∀ (c : Comparison) (val v : BenchVarValue) (vs : List BenchVarValue) (e : CompareErr),
      Comparison.compare c v val = .error e → e.err ≠ .differentNames →
      innerFilter c val (v :: vs) = .error e) ∧
    (∀ (c : Comparison) (val : BenchVarValue) (res : BenchRes) (rest : List BenchRes)
      (e : CompareErr), innerFilter c val res.inputs.varValues = .error e →
      filterLoop c val (res :: rest) = .error e) ∧
    BenchResults.Filter sampleResults "y==2".toList =
      .error (.cmpFailed ⟨⟨"y".toList, .str "sin(x)".toList, 2⟩,
        ⟨"y".toList, .int 2, 0⟩, cmpEq, .nonComparable⟩) := by
  refine ⟨fun c val v vs e hc hd => ?_, fun c val v vs e hc hd => ?_,
    fun c val res rest e hi => ?_, by decide⟩
  · rw [innerFilter, hc]
    exact if_pos hd
  · rw [innerFilter, hc]
    exact if_neg hd
  · rw [filterLoop, hi]

/-- Witness for C7: a `differentNames` error on `z=1` is skipped, a
`nonComparable` error on `y="sin(x)"` aborts the inner loop, and an inner
error aborts the outer loop. -/
theorem c7_filter_error_policy_witness :
    innerFilter cmpEq ⟨"y".toList, .int 2, 0⟩
        (⟨"z".toList, .int 1, 1⟩ :: [⟨"y".toList, .int 2, 2⟩]) =
      innerFilter cmpEq ⟨"y".toList, .int 2, 0⟩ [⟨"y".toList, .int 2, 2⟩] ∧
    innerFilter cmpEq ⟨"y".toList, .int 2, 0⟩
        (⟨"y".toList, .str "sin(x)".toList, 1⟩ :: [⟨"y".toList, .int 2, 2⟩]) =
      .error ⟨⟨"y".toList, .str "sin(x)".toList, 1⟩, ⟨"y".toList, .int 2, 0⟩,
        cmpEq, .nonComparable⟩ ∧
    filterLoop cmpEq ⟨"y".toList, .int 2, 0⟩
        (⟨⟨[⟨"y".toList, .str "sin(x)".toList, 1⟩], [], 1⟩,
          ⟨1, .finite 1, 0, 0, .finite 0, 1⟩⟩ :: []) =
      .error ⟨⟨"y".toList, .str "sin(x)".toList, 1⟩, ⟨"y".toList, .int 2, 0⟩,
        cmpEq, .nonComparable⟩ :=
  ⟨c7_filter_error_policy.1 cmpEq ⟨"y".toList, .int 2, 0⟩ ⟨"z".toList, .int 1, 1⟩
      [⟨"y".toList, .int 2, 2⟩]
      ⟨⟨"z".toList, .int 1, 1⟩, ⟨"y".toList, .int 2, 0⟩, cmpEq, .differentNames⟩
      (by decide) (by decide),
   c7_filter_error_policy.2.1 cmpEq ⟨"y".toList, .int 2, 0⟩
      ⟨"y".toList, .str "sin(x)".toList, 1⟩ [⟨"y".toList, .int 2, 2⟩]
      ⟨⟨"y".toList, .str "sin(x)".toList, 1⟩, ⟨"y".toList, .int 2, 0⟩, cmpEq, .nonComparable⟩
      (by decide) (by decide),
   c7_filter_error_policy.2.2.1 cmpEq ⟨"y".toList, .int 2, 0⟩
      ⟨⟨[⟨"y".toList, .str "sin(x)".toList, 1⟩], [], 1⟩, ⟨1, .finite 1, 0, 0, .finite 0, 1⟩⟩ []
      ⟨⟨"y".toList, .str "sin(x)".toList, 1⟩, ⟨"y".toList, .int 2, 0⟩, cmpEq, .nonComparable⟩
      (by decide)⟩

/-- An `ok` outcome of the operator loop of `parseValueComparison` comes from
one operator in the list splitting the input into exactly two fields. -/
theorem pvcLoop_ok :
    ∀ (ops : List Comparison) (s : GoStr) (vc : VarValComp), pvcLoop ops s = .ok vc →
      ∃ tok, vc.cmp ∈ ops ∧ splitGo vc.cmp s = [vc.varValue.name, tok] ∧
        vc.varValue = ⟨vc.varValue.name, value tok, 0⟩ := by
  intro ops
  induction ops with
  | nil => intro s vc h; exact absurd h (by simp [pvcLoop])
  | cons cmp rest ih =>
    intro s vc h
    rw [pvcLoop] at h
    cases hs : splitGo cmp s with
    | nil => rw [hs] at h; obtain ⟨tok, h1, h2, h3⟩ := ih s vc h; exact ⟨tok, List.mem_cons_of_mem _ h1, h2, h3⟩
    | cons n t1 =>
      cases t1 with
      | nil =>
        rw [hs] at h
        obtain ⟨tok, h1, h2, h3⟩ := ih s vc h
        exact ⟨tok, List.mem_cons_of_mem _ h1, h2, h3⟩
      | cons v t2 =>
        cases t2 with
        | nil =>
          rw [hs] at h
          injection h with h
          subst h
          exact ⟨v, List.mem_cons_self .., hs, rfl⟩
        | cons w t3 =>
          rw [hs] at h
          obtain ⟨tok, h1, h2, h3⟩ := ih s vc h
          exact ⟨tok, List.mem_cons_of_mem _ h1, h2, h3⟩

/-- C8 (amended): for every filter-expression string that parses, the input
is `name ++ op ++ token`, the stored value is the typed token, and
`varValComp.String` re-renders it as `name ++ op ++ v` where `v` is the Go
default (`%v`) rendering of the typed token; for non-float values that
rendering agrees with the `name=value` rule of `BenchVarValue.String`, but
for float values `BenchVarValue.String` instead uses the fixed six-decimal
`%f` rule. -/
theorem c8_roundtrip_default_rendering (input : GoStr) (vc : VarValComp)
    (h : parseValueComparison input = .ok vc) :
    ∃ tok, input = vc.varValue.name ++ vc.cmp ++ tok ∧
      vc.varValue.value = value tok ∧
      varValCompString vc = vc.varValue.name ++ vc.cmp ++ goFormatV (value tok) ∧
      (∀ nm p, (∀ f, vc.varValue.value ≠ .float f) →
        benchVarValueString ⟨nm, vc.varValue.value, p⟩ = nm ++ '=' :: goFormatV (value tok)) := by
  obtain ⟨tok, hmem, hsplit, hval⟩ := pvcLoop_ok cmps input vc h
  have hcne : vc.cmp ≠ [] := by
    intro hnil
    rw [hnil] at hmem
    simp [cmps, cmpEq, cmpNe, cmpLe, cmpGe, cmpLt, cmpGt] at hmem
  have hv : vc.varValue.value = value tok := by
    conv_lhs => rw [hval]
  refine ⟨tok, splitGo_pair hcne hsplit, hv, ?_, fun nm p hnf => ?_⟩
  · rw [varValCompString, hv]
  · rw [← hv]
    cases hvv : vc.varValue.value with
    | float f => exact absurd hvv (hnf f)
    | int n => rfl
    | bool b => rfl
    | str t => rfl

/-- Witness for C8 on the expression `delta<=2.5`. -/
theorem c8_roundtrip_default_rendering_witness :
    ∃ tok, "delta<=2.5".toList =
        "delta".toList ++ cmpLe ++ tok ∧
      GoValue.float (.finite (mkRat 5 2)) = value tok ∧
      varValCompString ⟨⟨"delta".toList, .float (.finite (mkRat 5 2)), 0⟩, cmpLe⟩ =
        "delta".toList ++ cmpLe ++ goFormatV (value tok) ∧
      (∀ nm p, (∀ f, GoValue.float (.finite (mkRat 5 2)) ≠ .float f) →
        benchVarValueString ⟨nm, GoValue.float (.finite (mkRat 5 2)), p⟩ =
          nm ++ '=' :: goFormatV (value tok)) :=
  c8_roundtrip_default_rendering "delta<=2.5".toList
    ⟨⟨"delta".toList, .float (.finite (mkRat 5 2)), 0⟩, cmpLe⟩ (by decide)

/-- C8, counterexample to the claim as stated: parsing `delta<=2.5` and
re-rendering yields `delta<=2.5` (the `%v` rule), not `delta<=2.500000` as
the `BenchVarValue.String` float rule (`%f`, six decimals) would produce. -/
theorem c8_counterexample_float_rendering :
    parseValueComparison "delta<=2.5".toList =
      .ok ⟨⟨"delta".toList, .float (.finite (mkRat 5 2)), 0⟩, cmpLe⟩ ∧
    varValCompString ⟨⟨"delta".toList, .float (.finite (mkRat 5 2)), 0⟩, cmpLe⟩ =
      "delta<=2.5".toList ∧
    benchVarValueString ⟨"delta".toList, .float (.finite (mkRat 5 2)), 0⟩ =
      "delta=2.500000".toList ∧
    varValCompString ⟨⟨"delta".toList, .float (.finite (mkRat 5 2)), 0⟩, cmpLe⟩ ≠
      "delta".toList ++ cmpLe ++ "2.500000".toList :=
  ⟨by decide, by decide, by decide, by decide⟩

/-- `updateGroup` preserves the invariant that every result sits under its
own key. -/
theorem updateGroup_invariant (key : BenchRes → GoStr) :
    ∀ (m : GroupedResults) (k' : GoStr) (r : BenchRes),
      (∀ kb ∈ m, ∀ res ∈ kb.2, kb.1 = key res) → k' = key r →
      ∀ kb ∈ updateGroup m k' r, ∀ res ∈ kb.2, kb.1 = key res := by
  intro m
  induction m with
  | nil =>
    intro k' r _ hk kb hkb res hres
    rw [updateGroup] at hkb
    rcases List.mem_singleton.mp hkb with rfl
    rcases List.mem_singleton.mp hres with rfl
    exact hk
  | cons kb0 t ih =>
    intro k' r hp hk kb hkb res hres
    obtain ⟨k0, rs0⟩ := kb0
    rw [updateGroup] at hkb
    by_cases h0 : k0 = k'
    · rw [if_pos h0] at hkb
      rcases List.mem_cons.mp hkb with rfl | htail
      · rcases List.mem_append.mp hres with hin | hin
        · exact hp (k0, rs0) (List.mem_cons_self ..) res hin
        · rcases List.mem_singleton.mp hin with rfl
          rw [h0, hk]
      · exact hp kb (List.mem_cons_of_mem _ htail) res hres
    · rw [if_neg h0] at hkb
      rcases List.mem_cons.mp hkb with rfl | htail
      · exact hp (k0, rs0) (List.mem_cons_self ..) res hres
      · exact ih k' r (fun kb' hkb' => hp kb' (List.mem_cons_of_mem _ hkb')) hk kb htail res hres

/-- The result loop of `Group` preserves the key invariant. -/
theorem groupLoop_invariant (gb : List GoStr) :
    ∀ (rs : List BenchRes) (m : GroupedResults),
      (∀ kb ∈ m, ∀ res ∈ kb.2,
        kb.1 = benchVarValuesString (groupVals res.inputs.varValues gb)) →
      ∀ kb ∈ groupLoop gb rs m, ∀ res ∈ kb.2,
        kb.1 = benchVarValuesString (groupVals res.inputs.varValues gb) := by
  intro rs
  induction rs with
  | nil => intro m hp; exact hp
  | cons res rest ih =>
    intro m hp
    rw [groupLoop]
    by_cases hlen : (groupVals res.inputs.varValues gb).length ≠ gb.length
    · rw [if_pos hlen]
      exact ih m hp
    · rw [if_neg hlen]
      exact ih _ (updateGroup_invariant
        (fun r => benchVarValuesString (groupVals r.inputs.varValues gb)) m _ res hp rfl)

/-- With a duplicate-free group-by list, the nested collection loops select
exactly the result's variables with a requested name, in the result's own
order. -/
theorem groupVals_eq_filter {gb : List GoStr} (hnd : gb.Nodup) :
    ∀ vvs : List BenchVarValue,
      groupVals vvs gb = vvs.filter (fun v => decide (v.name ∈ gb)) := by
  have inner : ∀ (v : BenchVarValue) (l : List GoStr), l.Nodup →
      (l.flatMap fun groupName => if v.name = groupName then [v] else []) =
        if v.name ∈ l then [v] else [] := by
    intro v l
    induction l with
    | nil => intro _; simp
    | cons g t ih =>
      intro hnd'
      obtain ⟨hg, ht⟩ := List.nodup_cons.mp hnd'
      rw [List.flatMap_cons, ih ht]
      by_cases hvg : v.name = g
      · rw [if_pos hvg, if_neg (fun hmem => hg (hvg ▸ hmem)), if_pos (by simp [hvg])]
        simp
      · rw [if_neg hvg]
        by_cases hvt : v.name ∈ t
        · rw [if_pos hvt, if_pos (by simp [hvt])]
          simp
        · rw [if_neg hvt, if_neg (by simp [hvg, hvt])]
          simp
  intro vvs
  induction vvs with
  | nil => simp [groupVals]
  | cons v rest ih =>
    rw [groupVals, List.flatMap_cons, inner v gb hnd, List.filter_cons, ← groupVals, ih]
    by_cases hv : v.name ∈ gb
    · rw [if_pos hv, if_pos (by simpa using hv)]
      rfl
    · rw [if_neg hv, if_neg (by simpa using hv)]
      simp

/-- C9 (amended): every result placed into a group by `Group` sits under the
key obtained by joining its matched `name=value` pairs with commas in the
order the variables appear in the result's own variable sequence (their
order in the original case name), not in the order of the caller's group-by
name list. -/
theorem c9_group_key_result_order (b : BenchResults) (groupBy : List GoStr)
    (hnd : groupBy.Nodup) (k : GoStr) (bucket : BenchResults) (res : BenchRes)
    (hk : (k, bucket) ∈ BenchResults.Group b groupBy) (hres : res ∈ bucket) :
    k = benchVarValuesString
      (res.inputs.varValues.filter (fun v => decide (v.name ∈ groupBy))) := by
  rw [BenchResults.Group] at hk
  by_cases hemp : groupBy.isEmpty
  · rw [if_pos hemp] at hk
    obtain ⟨rfl, rfl⟩ := Prod.mk.inj (List.mem_singleton.mp hk)
    have hgb : groupBy = [] := List.isEmpty_iff.mp hemp
    subst hgb
    simp [benchVarValuesString, joinSep]
  · rw [if_neg hemp] at hk
    have hkey : k = benchVarValuesString (groupVals res.inputs.varValues groupBy) :=
      groupLoop_invariant groupBy b [] (by simp) (k, bucket) hk res hres
    rw [hkey, groupVals_eq_filter hnd]

/-- Witness for C9: grouping a result with variables `a=1` (position 1) and
`b=2` (position 2) by `["b", "a"]` files it under `a=1,b=2`. -/
theorem c9_group_key_result_order_witness :
    ("a=1,b=2".toList : GoStr) = benchVarValuesString
      ((⟨⟨[⟨"a".toList, .int 1, 1⟩, ⟨"b".toList, .int 2, 2⟩], [], 1⟩,
        ⟨1, .finite 1, 0, 0, .finite 0, 1⟩⟩ : BenchRes).inputs.varValues.filter
        (fun v => decide (v.name ∈ ["b".toList, "a".toList]))) :=
  c9_group_key_result_order
    [⟨⟨[⟨"a".toList, .int 1, 1⟩, ⟨"b".toList, .int 2, 2⟩], [], 1⟩,
      ⟨1, .finite 1, 0, 0, .finite 0, 1⟩⟩]
    ["b".toList, "a".toList] (by decide) "a=1,b=2".toList
    [⟨⟨[⟨"a".toList, .int 1, 1⟩, ⟨"b".toList, .int 2, 2⟩], [], 1⟩,
      ⟨1, .finite 1, 0, 0, .finite 0, 1⟩⟩]
    ⟨⟨[⟨"a".toList, .int 1, 1⟩, ⟨"b".toList, .int 2, 2⟩], [], 1⟩,
      ⟨1, .finite 1, 0, 0, .finite 0, 1⟩⟩
    (by decide) (by decide)

/-- C9, counterexample to the claim as stated: grouping a result with
variables `a=1` (position 1) and `b=2` (position 2) by the caller list
`["b", "a"]` produces the key `a=1,b=2`, ordered by the result's own
variable sequence; the caller-list order would give `b=2,a=1`. -/
theorem c9_counterexample_groupby_order :
    BenchResults.Group
        [⟨⟨[⟨"a".toList, .int 1, 1⟩, ⟨"b".toList, .int 2, 2⟩], [], 1⟩,
          ⟨1, .finite 1, 0, 0, .finite 0, 1⟩⟩]
        ["b".toList, "a".toList] =
      [("a=1,b=2".toList,
        [⟨⟨[⟨"a".toList, .int 1, 1⟩, ⟨"b".toList, .int 2, 2⟩], [], 1⟩,
          ⟨1, .finite 1, 0, 0, .finite 0, 1⟩⟩])] ∧
    ("a=1,b=2".toList : GoStr) ≠ "b=2,a=1".toList :=
  ⟨by decide, by decide⟩

/-- A list is a `isPrefixOf` of itself followed by anything. -/
theorem isPrefixOf_self_append : ∀ (l t : GoStr), l.isPrefixOf (l ++ t) = true := by
  intro l
  induction l with
  | nil => intro t; simp [List.isPrefixOf]
  | cons c rest ih => intro t; simp [List.isPrefixOf, ih t]

/-- An operator with no occurrence in the remainder splits `op ++ r` into the
empty field and the remainder. -/
theorem splitSelf : ∀ (o : Comparison), o ≠ [] → ∀ r : GoStr,
    containsSeq o r = false → splitGo o (o ++ r) = [[], r] := by
  intro o ho r hocc
  cases o with
  | nil => exact absurd rfl ho
  | cons c0 sep' =>
    show splitAux c0 sep' ((c0 :: sep') ++ r).length [] ((c0 :: sep') ++ r) = [[], r]
    rw [show ((c0 :: sep') ++ r : GoStr) = c0 :: (sep' ++ r) from rfl]
    rw [show (c0 :: (sep' ++ r) : GoStr).length = (sep' ++ r).length + 1 from by simp]
    rw [splitAux, if_pos (show (c0 :: sep').isPrefixOf (c0 :: (sep' ++ r)) = true from
      isPrefixOf_self_append (c0 :: sep') r)]
    rw [show (sep' ++ r : GoStr).drop sep'.length = r from List.drop_left sep' r]
    rw [splitAux_no_occurrence c0 sep' r _ [] hocc]
    rfl

/-- A two-character operator `a=` misses an input `ch :: r` when it neither
matches at the front nor occurs in `r`. -/
theorem splitTwoCharMiss1 (a ch : Char) (r : GoStr)
    (h0 : a = ch → ['='].isPrefixOf r = false)
    (hocc : containsSeq [a, '='] r = false) :
    splitGo [a, '='] (ch :: r) = [ch :: r] := by
  show splitAux a ['='] (ch :: r).length [] (ch :: r) = [ch :: r]
  rw [show ((ch :: r : GoStr)).length = r.length + 1 from by simp]
  rw [splitAux]
  rw [if_neg ?hpre]
  case hpre =>
    intro hp
    simp only [List.isPrefixOf, Bool.and_eq_true, beq_iff_eq] at hp
    obtain ⟨rfl, hp2⟩ := hp
    rw [h0 rfl] at hp2
    exact Bool.false_ne_true hp2
  rw [splitAux_no_occurrence a ['='] r _ [ch] hocc]
  rfl

/-- A two-character operator `a=` misses an input `b :: '=' :: r` when its
lead character differs from `b`, it cannot match at offset one, and it does
not occur in `r`. -/
theorem splitTwoCharMiss2 (a b : Char) (r : GoStr)
    (hab : ¬ a = b)
    (h1 : a = '=' → ['='].isPrefixOf r = false)
    (hocc : containsSeq [a, '='] r = false) :
    splitGo [a, '='] (b :: '=' :: r) = [b :: '=' :: r] := by
  show splitAux a ['='] (b :: '=' :: r).length [] (b :: '=' :: r) = [b :: '=' :: r]
  rw [show ((b :: '=' :: r : GoStr)).length = r.length + 1 + 1 from by simp]
  rw [splitAux]
  rw [if_neg ?hpre0]
  case hpre0 =>
    intro hp
    simp only [List.isPrefixOf, Bool.and_eq_true, beq_iff_eq] at hp
    exact hab hp.1
  rw [splitAux]
  rw [if_neg ?hpre1]
  case hpre1 =>
    intro hp
    simp only [List.isPrefixOf, Bool.and_eq_true, beq_iff_eq] at hp
    obtain ⟨rfl, hp2⟩ := hp
    rw [h1 rfl] at hp2
    exact Bool.false_ne_true hp2
  rw [splitAux_no_occurrence a ['='] r _ ['=', b] hocc]
  rfl

/-- A one-character operator misses an input headed by a different character
when it does not occur in the remainder. -/
theorem splitOneCharMiss (a ch : Char) (r : GoStr) (hne : ¬ a = ch)
    (hocc : containsSeq [a] r = false) :
    splitGo [a] (ch :: r) = [ch :: r] := by
  show splitAux a [] (ch :: r).length [] (ch :: r) = [ch :: r]
  rw [show ((ch :: r : GoStr)).length = r.length + 1 from by simp]
  rw [splitAux]
  rw [if_neg ?hpre]
  case hpre =>
    intro hp
    simp only [List.isPrefixOf, Bool.and_eq_true, beq_iff_eq] at hp
    exact hne hp.1
  rw [splitAux_no_occurrence a [] r _ [ch] hocc]
  rfl

/-- An operator whose split yields one field falls through to the next
operator in the loop. -/
theorem pvcLoop_step_single (op : Comparison) (rest : List Comparison) (s x : GoStr)
    (h : splitGo op s = [x]) : pvcLoop (op :: rest) s = pvcLoop rest s := by
  rw [pvcLoop, h]

/-- An operator whose split yields exactly two fields ends the loop. -/
theorem pvcLoop_step_hit (op : Comparison) (rest : List Comparison) (s n v : GoStr)
    (h : splitGo op s = [n, v]) : pvcLoop (op :: rest) s = .ok ⟨⟨n, value v, 0⟩, op⟩ := by
  rw [pvcLoop, h]

/-- C10 (amended): for every operator `o` among the six and every non-empty
remainder `r` that contains no operator symbol and does not start with `=`,
`parseValueComparison (o ++ r)` succeeds with the empty variable name, the
operator `o`, and the typed remainder — rather than failing with the
`errMalformedFilter` error. (Without the no-leading-`=` condition an earlier
operator in the loop can capture part of the input, as the counterexample
shows.) -/
theorem c10_empty_identifier_accepted (o : Comparison) (r : GoStr)
    (ho : o ∈ cmps) (hr : r ≠ [])
    (hocc : ∀ o' ∈ cmps, containsSeq o' r = false)
    (hhead : r.headD ' ' ≠ '=') :
    parseValueComparison (o ++ r) = .ok ⟨⟨[], value r, 0⟩, o⟩ := by
  cases r with
  | nil => exact absurd rfl hr
  | cons rh rt =>
  have hh : ¬ rh = '=' := by simpa using hhead
  have hh' : ¬ '=' = rh := fun h => hh h.symm
  have hpr : ['='].isPrefixOf (rh :: rt) = false := by
    simp [List.isPrefixOf, hh']
  have hoEq := hocc cmpEq (by simp [cmps])
  have hoNe := hocc cmpNe (by simp [cmps])
  have hoLe := hocc cmpLe (by simp [cmps])
  have hoGe := hocc cmpGe (by simp [cmps])
  have hoLt := hocc cmpLt (by simp [cmps])
  have hoGt := hocc cmpGt (by simp [cmps])
  have hmem : o = cmpEq ∨ o = cmpNe ∨ o = cmpLe ∨ o = cmpGe ∨ o = cmpLt ∨ o = cmpGt := by
    simpa [cmps] using ho
  rcases hmem with rfl | rfl | rfl | rfl | rfl | rfl
  · show pvcLoop (cmpEq :: [cmpNe, cmpLe, cmpGe, cmpLt, cmpGt]) (cmpEq ++ (rh :: rt)) = _
    rw [pvcLoop_step_hit cmpEq _ _ [] (rh :: rt) (splitSelf cmpEq (by decide) _ hoEq)]
  · show pvcLoop (cmpEq :: [cmpNe, cmpLe, cmpGe, cmpLt, cmpGt]) (cmpNe ++ (rh :: rt)) = _
    rw [show (cmpNe ++ (rh :: rt) : GoStr) = '!' :: '=' :: rh :: rt from rfl]
    rw [pvcLoop_step_single cmpEq _ _ _
      (splitTwoCharMiss2 '=' '!' (rh :: rt) (by decide) (fun _ => hpr) hoEq)]
    show pvcLoop (cmpNe :: [cmpLe, cmpGe, cmpLt, cmpGt]) _ = _
    rw [show ('!' :: '=' :: rh :: rt : GoStr) = cmpNe ++ (rh :: rt) from rfl]
    rw [pvcLoop_step_hit cmpNe _ _ [] (rh :: rt) (splitSelf cmpNe (by decide) _ hoNe)]
  · show pvcLoop (cmpEq :: [cmpNe, cmpLe, cmpGe, cmpLt, cmpGt]) (cmpLe ++ (rh :: rt)) = _
    rw [show (cmpLe ++ (rh :: rt) : GoStr) = '<' :: '=' :: rh :: rt from rfl]
    rw [pvcLoop_step_single cmpEq _ _ _
      (splitTwoCharMiss2 '=' '<' (rh :: rt) (by decide) (fun _ => hpr) hoEq)]
    rw [pvcLoop_step_single cmpNe _ _ _
      (splitTwoCharMiss2 '!' '<' (rh :: rt) (by decide) (by intro h; exact absurd h (by decide)) hoNe)]
    show pvcLoop (cmpLe :: [cmpGe, cmpLt, cmpGt]) _ = _
    rw [show ('<' :: '=' :: rh :: rt : GoStr) = cmpLe ++ (rh :: rt) from rfl]
    rw [pvcLoop_step_hit cmpLe _ _ [] (rh :: rt) (splitSelf cmpLe (by decide) _ hoLe)]
  · show pvcLoop (cmpEq :: [cmpNe, cmpLe, cmpGe, cmpLt, cmpGt]) (cmpGe ++ (rh :: rt)) = _
    rw [show (cmpGe ++ (rh :: rt) : GoStr) = '>' :: '=' :: rh :: rt from rfl]
    rw [pvcLoop_step_single cmpEq _ _ _
      (splitTwoCharMiss2 '=' '>' (rh :: rt) (by decide) (fun _ => hpr) hoEq)]
    rw [pvcLoop_step_single cmpNe _ _ _
      (splitTwoCharMiss2 '!' '>' (rh :: rt) (by decide) (by intro h; exact absurd h (by decide)) hoNe)]
    rw [pvcLoop_step_single cmpLe _ _ _
      (splitTwoCharMiss2 '<' '>' (rh :: rt) (by decide) (by intro h; exact absurd h (by decide)) hoLe)]
    show pvcLoop (cmpGe :: [cmpLt, cmpGt]) _ = _
    rw [show ('>' :: '=' :: rh :: rt : GoStr) = cmpGe ++ (rh :: rt) from rfl]
    rw [pvcLoop_step_hit cmpGe _ _ [] (rh :: rt) (splitSelf cmpGe (by decide) _ hoGe)]
  · show pvcLoop (cmpEq :: [cmpNe, cmpLe, cmpGe, cmpLt, cmpGt]) (cmpLt ++ (rh :: rt)) = _
    rw [show (cmpLt ++ (rh :: rt) : GoStr) = '<' :: rh :: rt from rfl]
    rw [pvcLoop_step_single cmpEq _ _ _
      (splitTwoCharMiss1 '=' '<' (rh :: rt) (by intro h; exact absurd h (by decide)) hoEq)]
    rw [pvcLoop_step_single cmpNe _ _ _
      (splitTwoCharMiss1 '!' '<' (rh :: rt) (by intro h; exact absurd h (by decide)) hoNe)]
    rw [pvcLoop_step_single cmpLe _ _ _
      (splitTwoCharMiss1 '<' '<' (rh :: rt) (fun _ => hpr) hoLe)]
    rw [pvcLoop_step_single cmpGe _ _ _
      (splitTwoCharMiss1 '>' '<' (rh :: rt) (by intro h; exact absurd h (by decide)) hoGe)]
    show pvcLoop (cmpLt :: [cmpGt]) _ = _
    rw [show ('<' :: rh :: rt : GoStr) = cmpLt ++ (rh :: rt) from rfl]
    rw [pvcLoop_step_hit cmpLt _ _ [] (rh :: rt) (splitSelf cmpLt (by decide) _ hoLt)]
  · show pvcLoop (cmpEq :: [cmpNe, cmpLe, cmpGe, cmpLt, cmpGt]) (cmpGt ++ (rh :: rt)) = _
    rw [show (cmpGt ++ (rh :: rt) : GoStr) = '>' :: rh :: rt from rfl]
    rw [pvcLoop_step_single cmpEq _ _ _
      (splitTwoCharMiss1 '=' '>' (rh :: rt) (by intro h; exact absurd h (by decide)) hoEq)]
    rw [pvcLoop_step_single cmpNe _ _ _
      (splitTwoCharMiss1 '!' '>' (rh :: rt) (by intro h; exact absurd h (by decide)) hoNe)]
    rw [pvcLoop_step_single cmpLe _ _ _
      (splitTwoCharMiss1 '<' '>' (rh :: rt) (by intro h; exact absurd h (by decide)) hoLe)]
    rw [pvcLoop_step_single cmpGe _ _ _
      (splitTwoCharMiss1 '>' '>' (rh :: rt) (fun _ => hpr) hoGe)]
    rw [pvcLoop_step_single cmpLt _ _ _
      (splitOneCharMiss '<' '>' (rh :: rt) (by decide) hoLt)]
    show pvcLoop (cmpGt :: []) _ = _
    rw [show ('>' :: rh :: rt : GoStr) = cmpGt ++ (rh :: rt) from rfl]
    rw [pvcLoop_step_hit cmpGt _ _ [] (rh :: rt) (splitSelf cmpGt (by decide) _ hoGt)]

/-- Witness for C10 on the input `==2`: empty variable name, operator `==`,
value the typed remainder `2`. -/
theorem c10_empty_identifier_accepted_witness :
    parseValueComparison (cmpEq ++ "2".toList) = .ok ⟨⟨[], value "2".toList, 0⟩, cmpEq⟩ :=
  c10_empty_identifier_accepted cmpEq "2".toList (by decide) (by decide)
    (by decide) (by decide)

/-- C10, counterexample to the claim as stated: `<==2` begins with the
operator `<=` and its remainder `=2` is non-empty and contains no operator
symbol, yet `parseValueComparison` returns variable name `<` (with operator
`==` and value `2`), not the empty name with the typed remainder. -/
theorem c10_counterexample_leading_equals :
    ("<==2".toList : GoStr) = cmpLe ++ "=2".toList ∧
    ("=2".toList : GoStr) ≠ [] ∧
    (∀ o' ∈ cmps, containsSeq o' "=2".toList = false) ∧
    parseValueComparison "<==2".toList = .ok ⟨⟨"<".toList, .int 2, 0⟩, cmpEq⟩ ∧
    ("<".toList : GoStr) ≠ [] :=
  ⟨by decide, by decide, by decide, by decide, by decide⟩

end Lemmas

end Benchparse
